import Mathlib

/-!
Shallow embedding of the upload-orchestration and list-reconciliation subsystem of
the photography management client (`Management` component and `SortablePhotos`).

The embedded pieces, each translated from the source:
* `fileIntake` — the dedup pass at the top of `uploadFiles` (known-name set,
  skip records, to-upload list);
* `pump` / `completeStep` / `schedRun` — the bounded-concurrency scheduler loop
  inside `uploadFiles` (`i`, `inFlight`, `done` counters, drain-complete firing);
* `applyEvent` / `runEvents` — `uploadOne`'s XMLHttpRequest handlers
  (onprogress / upload.onload / onerror / onload) acting on an `UploadRecord`,
  together with the resolve/reject call counts of the worker's promise;
* `persistOrder` — the diff-based position persistence;
* `handleDragEnd` / `arrayMove` — the drop handler of `SortablePhotos`;
* `onSaveTitle` — the title-edit commit handler passed to `SortablePhotos`;
* `clearUploadsPanel` — the delayed panel clear scheduled by `uploadFiles`.
-/

namespace Photography

/-- Status values of an `UploadRecord` (the `status` field of the records built in
`uploadFiles` and mutated in `uploadOne`): one of `"uploading"`, `"processing"`,
`"done"`, `"error"`, `"skipped"`. -/
inductive UStatus
  | uploading
  | processing
  | done
  | error
  | skipped
  deriving DecidableEq, Repr

/-- A file-like input as handed to `uploadFiles`. `name` is the file name used for
duplicate detection; `tag` models object identity, so two distinct files in one
batch may carry the same name. -/
structure JFile where
  name : String
  tag : Nat
  deriving DecidableEq, Repr

/-- A client-side upload record `{name, progress, status, error}`. The random
per-attempt `id` string of the source is omitted: it is fresh per record and no
claim concerns it. -/
structure UploadRecord where
  name : String
  progress : Nat
  status : UStatus
  error : Option String
  deriving DecidableEq, Repr

/-- The record created for a client-side duplicate in the dedup pass of
`uploadFiles`: `{name, progress: 0, status: "skipped", error: null}`. -/
def skipRecord (nm : String) : UploadRecord :=
  { name := nm, progress := 0, status := .skipped, error := none }

/-- The record created at the start of `uploadOne`:
`{name, progress: 0, status: "uploading", error: null}`. -/
def initRecord (nm : String) : UploadRecord :=
  { name := nm, progress := 0, status := .uploading, error := none }

/-- The dedup pass of `uploadFiles`: walk the input files in order carrying the
working set `existing` of known names (modelled as a list with membership, the
only operation the source uses on its `Set`); a file whose name is in the set
yields an immediate skip record, otherwise its name joins the set and the file
is appended to the to-upload list. -/
def intakeGo (existing : List String) : List JFile → List UploadRecord × List JFile
  | [] => ([], [])
  | f :: rest =>
    if f.name ∈ existing then
      let p := intakeGo existing rest
      (skipRecord f.name :: p.1, p.2)
    else
      let p := intakeGo (f.name :: existing) rest
      (p.1, f :: p.2)

/-- FileIntake: `uploadFiles` builds the initial working set from the current
photos' names and runs the dedup pass. Returns (skip records, to-upload list). -/
def fileIntake (photoNames : List String) (files : List JFile) :
    List UploadRecord × List JFile :=
  intakeGo photoNames files

/-- Transport events received by `uploadOne`'s XMLHttpRequest handlers. -/
inductive XhrEvent
  | progress (loaded total : Nat)
  | sent
  | netFailure
  | response (status : Nat)
  deriving DecidableEq, Repr

/-- The effect of one handler invocation: the updated record plus how many times
the worker promise's `resolve` and `reject` were called in that handler. -/
structure HandlerEffect where
  record : UploadRecord
  resolves : Nat
  rejects : Nat
  deriving DecidableEq, Repr

/-- One handler step of `uploadOne`:
* `progress` (xhr.upload.onprogress): when the length is computable (`total ≠ 0`),
  set `progress` to the rounded percentage;
* `sent` (xhr.upload.onload): all bytes transmitted — `status := "processing"`,
  `progress := 100`;
* `netFailure` (xhr.onerror): `status := "error"`, `error := "Network error"`,
  and `resolve()` is called;
* `response s` (xhr.onload): 2xx gives `"done"`, 409 gives `"skipped"` with
  `error := null`, anything else gives `"error"` with message `"HTTP s"`; in
  every case `resolve()` is called.
The promise executor of `uploadOne` binds only `resolve`, so no path can call
`reject`. -/
def applyEvent (r : UploadRecord) : XhrEvent → HandlerEffect
  | .progress loaded total =>
    if total ≠ 0 then
      ⟨{ r with progress := (200 * loaded + total) / (2 * total) }, 0, 0⟩
    else ⟨r, 0, 0⟩
  | .sent => ⟨{ r with status := .processing, progress := 100 }, 0, 0⟩
  | .netFailure => ⟨{ r with status := .error, error := some "Network error" }, 1, 0⟩
  | .response s =>
    if 200 ≤ s ∧ s < 300 then ⟨{ r with status := .done }, 1, 0⟩
    else if s = 409 then ⟨{ r with status := .skipped, error := none }, 1, 0⟩
    else ⟨{ r with status := .error, error := some ("HTTP " ++ toString s) }, 1, 0⟩

/-- Run a sequence of transport events through `uploadOne`'s handlers, summing the
resolve/reject call counts. -/
def runEvents (r : UploadRecord) : List XhrEvent → HandlerEffect
  | [] => ⟨r, 0, 0⟩
  | e :: es =>
    let h := applyEvent r e
    let t := runEvents h.record es
    ⟨t.record, h.resolves + t.resolves, h.rejects + t.rejects⟩

/-- Terminal transport events: exactly one of `xhr.onerror` / `xhr.onload` fires
per request. -/
def isTerminalEvent : XhrEvent → Bool
  | .netFailure => true
  | .response _ => true
  | _ => false

/-- The scheduler-visible counters of `uploadFiles`: `nextIndex` is the loop
variable `i` (index of the next file to start), `inFlight` and `done` the two
counters, and `resolveCount` the number of times the drain-complete branch
(`setTimeout(clear)` plus `resolve()`) has fired. -/
structure SchedState where
  nextIndex : Nat
  inFlight : Nat
  done : Nat
  resolveCount : Nat
  deriving DecidableEq, Repr

/-- Body of the `pump` while-loop of `uploadFiles`, with explicit fuel so the
definition is structural: each iteration of
`while (inFlight < UPLOAD_CONCURRENCY && i < toUpload.length)` takes the file at
`i`, increments `i` and `inFlight`, and starts a worker. The loop runs at most
`total - nextIndex` times since every iteration increments `nextIndex`, so
`pump` below supplies exactly that much fuel and is equivalent to the loop. -/
def pumpFuel (total cap : Nat) : Nat → SchedState → SchedState
  | 0, s => s
  | fuel + 1, s =>
    if s.inFlight < cap ∧ s.nextIndex < total then
      pumpFuel total cap fuel
        { s with nextIndex := s.nextIndex + 1, inFlight := s.inFlight + 1 }
    else s

/-- The `pump` loop of `uploadFiles` over a batch of `total` files with
concurrency cap `cap`. -/
def pump (total cap : Nat) (s : SchedState) : SchedState :=
  pumpFuel total cap (total - s.nextIndex) s

/-- The first two statements of the worker's `.finally` handler:
`inFlight--; done++`. -/
def finishCounters (s : SchedState) : SchedState :=
  { s with inFlight := s.inFlight - 1, done := s.done + 1 }

/-- The worker's `.finally` handler: decrement `inFlight`, increment `done`; if
`done` now equals the batch size, fire the drain-complete branch (schedule the
panel clear and call `resolve()`), otherwise re-invoke `pump`. -/
def completeStep (total cap : Nat) (s : SchedState) : SchedState :=
  if (finishCounters s).done = total then
    { finishCounters s with resolveCount := (finishCounters s).resolveCount + 1 }
  else pump total cap (finishCounters s)

/-- Scheduler start: all counters zero, then the initial `pump()` call. -/
def schedInit (total cap : Nat) : SchedState :=
  pump total cap ⟨0, 0, 0, 0⟩

/-- The scheduler state after `t` worker completions. Which worker finishes at
each step does not affect the counters, so this deterministic trace covers every
interleaving of completions. -/
def schedRun (total cap : Nat) : Nat → SchedState
  | 0 => schedInit total cap
  | t + 1 => completeStep total cap (schedRun total cap t)

/-- A photo as cached client-side. `title` is the last known server title;
`draftTitle` models the `_title` draft overlay written by the title input on
every keystroke; `sort_order` is the last known persisted position. Display-only
url and metadata fields are omitted: no embedded operation reads them. -/
structure Photo where
  id : Nat
  name : String
  title : Option String
  draftTitle : Option String
  sort_order : Nat
  deriving DecidableEq, Repr

/-- A `PATCH /photos/{id}` request body `{sort_order}` issued by `persistOrder`. -/
structure SortPatch where
  id : Nat
  sort_order : Nat
  deriving DecidableEq, Repr

/-- The body of `persistOrder`'s `forEach`, carried along the list with the
running index: for each photo whose `sort_order` differs from its index, issue a
position patch and immediately set the in-memory `sort_order` to the index
(optimistic update). The patch requests are returned as data — the source fires
and forgets them, so the in-memory update never depends on their resolution. -/
def persistOrderGo (idx : Nat) : List Photo → List SortPatch × List Photo
  | [] => ([], [])
  | p :: rest =>
    if p.sort_order ≠ idx then
      (⟨p.id, idx⟩ :: (persistOrderGo (idx + 1) rest).1,
        { p with sort_order := idx } :: (persistOrderGo (idx + 1) rest).2)
    else
      ((persistOrderGo (idx + 1) rest).1, p :: (persistOrderGo (idx + 1) rest).2)

/-- `persistOrder(order)`: diff the order against the last known `sort_order`
values, returning the issued position patches and the optimistically updated
photo list. -/
def persistOrder (order : List Photo) : List SortPatch × List Photo :=
  persistOrderGo 0 order

/-- dnd-kit's `arrayMove`: remove the element at `i` and reinsert it at `j` (in
the shortened array). `handleDragEnd` only calls it with indices produced by
successful `findIndex` calls, so both are in range there. -/
def arrayMove (l : List Photo) (i j : Nat) : List Photo :=
  if h : i < l.length then (l.eraseIdx i).insertNth j (l.get ⟨i, h⟩) else l

/-- The drop handler of `SortablePhotos`. Inputs: the current item list, the
dragged item's id, and the drop target's id if any. Output: the item list after
the gesture, and the order handed to `persistOrder` if a commit was issued
(`none` when the gesture was a no-op). Mirrors: bail out when there is no drop
target or the target id equals the dragged id; resolve both ids to indices with
`findIndex` (modelled by `findIdx?`, whose `none` is the source's `-1`); bail
out when either index is not found or the two are equal; otherwise apply
`arrayMove` once, set the items to the result, and commit that same order. -/
def handleDragEnd (items : List Photo) (activeId : Nat) (over : Option Nat) :
    List Photo × Option (List Photo) :=
  match over with
  | none => (items, none)
  | some overId =>
    if activeId = overId then (items, none)
    else
      match items.findIdx? (fun x => x.id == activeId),
          items.findIdx? (fun x => x.id == overId) with
      | some oldIndex, some newIndex =>
        if oldIndex = newIndex then (items, none)
        else (arrayMove items oldIndex newIndex, some (arrayMove items oldIndex newIndex))
      | some _, none => (items, none)
      | none, _ => (items, none)

/-- A `PATCH /photos/{id}` request body `{title}` issued by the title commit. -/
structure TitlePatch where
  id : Nat
  title : String
  deriving DecidableEq, Repr

/-- Interface actions on a card's title input: `onChange` fires the save callback
with `commit = false`; the Enter key and the Save button fire it with
`commit = true`. -/
inductive EditAction
  | keystroke
  | enterKey
  | saveClick
  deriving DecidableEq, Repr

/-- Whether an interface action is an explicit commit action. -/
def commitFlag : EditAction → Bool
  | .keystroke => false
  | .enterKey => true
  | .saveClick => true

/-- The `onSaveTitle` callback of `Management`: always write the draft overlay
(`_title := value`) onto the matching photo; when `commit` is set, look the
photo up, normalize the committed value by trimming, and issue a title patch
only if the normalized value differs from the last known server title
(`p.title ?? ""`). Returns the updated photo list and the issued requests. -/
def onSaveTitle (photos : List Photo) (pid : Nat) (value : String)
    (commit : Bool) : List Photo × List TitlePatch :=
  let overlaid := photos.map fun x =>
    if x.id = pid then { x with draftTitle := some value } else x
  if commit then
    match photos.find? (fun x => x.id == pid) with
    | none => (overlaid, [])
    | some p =>
      if value.trim = p.title.getD "" then (overlaid, [])
      else (overlaid, [⟨pid, value.trim⟩])
  else (overlaid, [])

/-- The delayed panel clear scheduled by `uploadFiles` — both on an all-skipped
batch with an empty to-upload list and on drain completion: the scheduled
callback is `setUploads([])`, which replaces the whole uploads list with the
empty list regardless of what the list holds at firing time. -/
def clearUploadsPanel (_uploads : List UploadRecord) : List UploadRecord := []

end Photography

namespace Photography

lemma runEvents_resolves (r : UploadRecord) (es : List XhrEvent) :
    (runEvents r es).resolves = es.countP isTerminalEvent := by
  induction es generalizing r with
  | nil => rfl
  | cons e es ih =>
    rw [runEvents, List.countP_cons]
    cases e with
    | progress loaded total =>
      by_cases h : total ≠ 0 <;>
        simp [applyEvent, isTerminalEvent, h, ih]
    | sent => simp [applyEvent, isTerminalEvent, ih]
    | netFailure => simp [applyEvent, isTerminalEvent, ih, Nat.add_comm]
    | response s =>
      by_cases h2 : 200 ≤ s ∧ s < 300
      · simp [applyEvent, isTerminalEvent, h2, ih, Nat.add_comm]
      · by_cases h4 : s = 409 <;>
          simp [applyEvent, isTerminalEvent, h2, h4, ih, Nat.add_comm]

lemma runEvents_rejects (r : UploadRecord) (es : List XhrEvent) :
    (runEvents r es).rejects = 0 := by
  induction es generalizing r with
  | nil => rfl
  | cons e es ih =>
    rw [runEvents]
    cases e with
    | progress loaded total =>
      by_cases h : total ≠ 0 <;> simp [applyEvent, h, ih]
    | sent => simp [applyEvent, ih]
    | netFailure => simp [applyEvent, ih]
    | response s =>
      by_cases h2 : 200 ≤ s ∧ s < 300
      · simp [applyEvent, h2, ih]
      · by_cases h4 : s = 409 <;> simp [applyEvent, h2, h4, ih]

lemma pumpFuel_spec (total cap : Nat) :
    ∀ (n : Nat) (s : SchedState), total - s.nextIndex ≤ n → s.inFlight ≤ cap →
      pumpFuel total cap n s =
        { s with
            nextIndex := s.nextIndex + min (cap - s.inFlight) (total - s.nextIndex),
            inFlight := s.inFlight + min (cap - s.inFlight) (total - s.nextIndex) } := by
  intro n
  induction n with
  | zero =>
    intro s hn _
    rw [pumpFuel]
    cases s with
    | mk ni fl d rc => simp_all [SchedState.mk.injEq] <;> omega
  | succ n ih =>
    intro s hn hc
    rw [pumpFuel]
    by_cases hg : s.inFlight < cap ∧ s.nextIndex < total
    · rw [if_pos hg]
      rw [ih { s with nextIndex := s.nextIndex + 1, inFlight := s.inFlight + 1 }
            (by simp <;> omega) (by simp <;> omega)]
      cases s with
      | mk ni fl d rc => simp_all [SchedState.mk.injEq] <;> omega
    · rw [if_neg hg]
      cases s with
      | mk ni fl d rc =>
        simp_all [SchedState.mk.injEq] <;> omega

lemma pump_spec (total cap : Nat) (s : SchedState) (hc : s.inFlight ≤ cap) :
    pump total cap s =
      { s with
          nextIndex := s.nextIndex + min (cap - s.inFlight) (total - s.nextIndex),
          inFlight := s.inFlight + min (cap - s.inFlight) (total - s.nextIndex) } :=
  pumpFuel_spec total cap (total - s.nextIndex) s (le_refl _) hc

/-- Closed form of the scheduler trace: after `t ≤ total` completions,
`nextIndex = min (t + cap) total`, `inFlight = min cap (total - t)`, `done = t`,
and the drain-complete branch has fired exactly when `t = total`. -/
lemma schedRun_closed (total cap t : Nat) (hN : 1 ≤ total) (hK : 1 ≤ cap)
    (ht : t ≤ total) :
    schedRun total cap t =
      ⟨min (t + cap) total, min cap (total - t), t, if t = total then 1 else 0⟩ := by
  induction t with
  | zero =>
    rw [schedRun, schedInit, pump_spec total cap ⟨0, 0, 0, 0⟩ (by simp),
      if_neg (show ¬ (0 = total) by omega)]
    simp [SchedState.mk.injEq] <;> omega
  | succ t ih =>
    rw [schedRun, ih (by omega), if_neg (show ¬ (t = total) by omega)]
    rw [completeStep]
    have hfc : finishCounters ⟨min (t + cap) total, min cap (total - t), t, 0⟩
        = ⟨min (t + cap) total, min cap (total - t) - 1, t + 1, 0⟩ := rfl
    rw [hfc]
    by_cases hdone : t + 1 = total
    · rw [if_pos (show
        (⟨min (t + cap) total, min cap (total - t) - 1, t + 1, 0⟩ : SchedState).done = total
        from hdone)]
      rw [if_pos hdone]
      simp [SchedState.mk.injEq] <;> omega
    · rw [if_neg (show
        ¬ (⟨min (t + cap) total, min cap (total - t) - 1, t + 1, 0⟩ : SchedState).done = total
        from hdone)]
      rw [pump_spec total cap _ (show min cap (total - t) - 1 ≤ cap by omega)]
      rw [if_neg hdone]
      simp [SchedState.mk.injEq] <;> omega

/-- C1: for every batch whose to-upload list has `total ≥ 1` files and concurrency
cap `cap ≥ 1`, at every instant of the completion trace (after `t ≤ total` worker
completions) the in-flight worker count never exceeds `cap`, the completed counter
equals `t` — so it only ever increases, rising from 0 at the start to `total` at
the end — `nextIndex` never exceeds `total`, and the drain-complete signal (the
panel-clear scheduling together with the promise resolution) has fired exactly
once exactly at the instant where the completed counter equals `total`, and never
before. -/
theorem uploadScheduler_invariants (total cap t : Nat) (hN : 1 ≤ total)
    (hK : 1 ≤ cap) (ht : t ≤ total) :
    (schedRun total cap t).inFlight ≤ cap ∧
    (schedRun total cap t).done = t ∧
    (schedRun total cap t).nextIndex ≤ total ∧
    (schedRun total cap t).resolveCount = (if (schedRun total cap t).done = total then 1 else 0) := by
  rw [schedRun_closed total cap t hN hK ht]
  refine ⟨by simp <;> omega, rfl, by simp <;> omega, ?_⟩
  by_cases h : t = total <;> simp [h]

/-- Witness for C1: a batch of 3 files with cap 2, observed after all 3
completions. -/
theorem uploadScheduler_invariants_witness :
    (schedRun 3 2 3).inFlight ≤ 2 ∧
    (schedRun 3 2 3).done = 3 ∧
    (schedRun 3 2 3).nextIndex ≤ 3 ∧
    (schedRun 3 2 3).resolveCount = (if (schedRun 3 2 3).done = 3 then 1 else 0) :=
  uploadScheduler_invariants 3 2 3 (by decide) (by decide) (by decide)

/-- C5: with concurrency cap 1 uploads are strictly sequential. At every instant
of the trace at most one worker is in flight, and whenever worker `i + 1` has
already been started (its index lies below `nextIndex`), at least `i + 1` workers
have completed; since the scheduler starts workers in index order and only one is
ever in flight, the completed ones are exactly workers `0..i`, so worker `i + 1`
is never started before worker `i` has reached a terminal state. -/
theorem uploadScheduler_sequential_K1 (total t i : Nat) (hN : 1 ≤ total)
    (ht : t ≤ total) (hstarted : i + 1 < (schedRun total 1 t).nextIndex) :
    i + 1 ≤ (schedRun total 1 t).done ∧ (schedRun total 1 t).inFlight ≤ 1 := by
  rw [schedRun_closed total 1 t hN (le_refl 1) ht] at hstarted ⊢
  constructor
  · simp only [] at hstarted ⊢
    omega
  · simp <;> omega

/-- Witness for C5: a batch of 2 files with cap 1 after one completion; worker 1
has been started (nextIndex = 2), and indeed one worker has completed. -/
theorem uploadScheduler_sequential_K1_witness :
    0 + 1 ≤ (schedRun 2 1 1).done ∧ (schedRun 2 1 1).inFlight ≤ 1 :=
  uploadScheduler_sequential_K1 2 1 0 (by decide) (by decide) (by decide)

/-- C6: a response with a non-2xx, non-409 status `s` drives the record to
terminal status `"error"` with message exactly `"HTTP s"`, and a network-level
transport failure drives it to terminal status `"error"` with the generic
message `"Network error"`. -/
theorem uploadWorker_error_statuses (r : UploadRecord) (s : Nat)
    (hnot2xx : ¬ (200 ≤ s ∧ s < 300)) (hnot409 : s ≠ 409) :
    ((applyEvent r (.response s)).record.status = .error ∧
     (applyEvent r (.response s)).record.error = some ("HTTP " ++ toString s)) ∧
    ((applyEvent r .netFailure).record.status = .error ∧
     (applyEvent r .netFailure).record.error = some "Network error") := by
  simp only [applyEvent]
  rw [if_neg hnot2xx, if_neg hnot409]
  simp

/-- Witness for C6: status 500 on a fresh record. -/
theorem uploadWorker_error_statuses_witness :
    (((applyEvent (initRecord "a.jpg") (.response 500)).record.status = .error ∧
      (applyEvent (initRecord "a.jpg") (.response 500)).record.error =
        some ("HTTP " ++ toString 500)) ∧
     ((applyEvent (initRecord "a.jpg") .netFailure).record.status = .error ∧
      (applyEvent (initRecord "a.jpg") .netFailure).record.error =
        some "Network error")) :=
  uploadWorker_error_statuses (initRecord "a.jpg") 500 (by decide) (by decide)

/-- C7: over any transport trace in which exactly one terminal event occurs (the
XMLHttpRequest contract: exactly one of `onerror` / `onload` fires), the worker's
completion promise is resolved exactly once and rejected zero times — so the
scheduler's `.catch` branch is unreachable — and the `.finally` handler run on
that completion decrements `inFlight` and increments the completed counter
exactly once, the same way for every kind of terminal outcome, so one worker's
error never aborts sibling uploads or the scheduler. -/
theorem uploadWorker_resolves_once (r : UploadRecord) (es : List XhrEvent)
    (h : es.countP isTerminalEvent = 1) (total cap : Nat) (s : SchedState) :
    (runEvents r es).resolves = 1 ∧
    (runEvents r es).rejects = 0 ∧
    (finishCounters s).done = s.done + 1 ∧
    (finishCounters s).inFlight = s.inFlight - 1 :=
  ⟨by rw [runEvents_resolves, h], runEvents_rejects r es, rfl, rfl⟩

/-- Witness for C7: a progress event, full transmission, then a 500 response, on
a scheduler state with one worker in flight. -/
theorem uploadWorker_resolves_once_witness :
    (runEvents (initRecord "a.jpg")
        [.progress 50 100, .sent, .response 500]).resolves = 1 ∧
    (runEvents (initRecord "a.jpg")
        [.progress 50 100, .sent, .response 500]).rejects = 0 ∧
    (finishCounters ⟨1, 1, 0, 0⟩).done = (⟨1, 1, 0, 0⟩ : SchedState).done + 1 ∧
    (finishCounters ⟨1, 1, 0, 0⟩).inFlight = (⟨1, 1, 0, 0⟩ : SchedState).inFlight - 1 :=
  uploadWorker_resolves_once (initRecord "a.jpg")
    [.progress 50 100, .sent, .response 500] (by decide) 1 1 ⟨1, 1, 0, 0⟩

/-- C3 counterexample: the claim states that a 409-skipped record and a
client-side pre-check skip record are state-identical with no field
distinguishing the two paths. On the trace where all bytes were transmitted
before the 409 response (the ordinary case), the server-skipped record has
`progress = 100` while the pre-check skip record has `progress = 0`: the
`progress` field distinguishes the two paths. -/
theorem skip_paths_progress_differs :
    (skipRecord "a.jpg").status = .skipped ∧
    (skipRecord "a.jpg").error = none ∧
    (runEvents (initRecord "a.jpg") [.sent, .response 409]).record.status = .skipped ∧
    (runEvents (initRecord "a.jpg") [.sent, .response 409]).record.error = none ∧
    (runEvents (initRecord "a.jpg") [.sent, .response 409]).record.progress = 100 ∧
    (skipRecord "a.jpg").progress = 0 := by
  refine ⟨rfl, rfl, ?_, ?_, ?_, rfl⟩ <;> decide

/-- C3 amended: a 409 response and a client-side pre-detected duplicate both end
in terminal records with `status = "skipped"` and `error = null` (for any record
state the 409 handler runs on), though the `progress` field may differ between
the two paths. -/
theorem skip_paths_status_error (nm : String) (r : UploadRecord) :
    (skipRecord nm).status = .skipped ∧
    (skipRecord nm).error = none ∧
    (applyEvent r (.response 409)).record.status = .skipped ∧
    (applyEvent r (.response 409)).record.error = none := by
  simp [applyEvent, skipRecord]

lemma intakeGo_sublist (known : List String) (files : List JFile) :
    (intakeGo known files).2.Sublist files := by
  induction files generalizing known with
  | nil => simp [intakeGo]
  | cons a rest ih =>
    rw [intakeGo]
    by_cases ha : a.name ∈ known
    · rw [if_pos ha]
      exact (ih known).cons a
    · rw [if_neg ha]
      exact (ih (a.name :: known)).cons₂ a

lemma intakeGo_records (known : List String) (files : List JFile) :
    ∀ r ∈ (intakeGo known files).1,
      r.status = .skipped ∧ r.error = none ∧ r.progress = 0 := by
  induction files generalizing known with
  | nil => simp [intakeGo]
  | cons a rest ih =>
    rw [intakeGo]
    by_cases ha : a.name ∈ known
    · rw [if_pos ha]
      intro r hr
      rcases List.mem_cons.mp hr with h | h
      · subst h
        exact ⟨rfl, rfl, rfl⟩
      · exact ih known r h
    · rw [if_neg ha]
      exact ih (a.name :: known)

lemma intakeGo_length (known : List String) (files : List JFile) :
    (intakeGo known files).1.length + (intakeGo known files).2.length =
      files.length := by
  induction files generalizing known with
  | nil => simp [intakeGo]
  | cons a rest ih =>
    rw [intakeGo]
    by_cases ha : a.name ∈ known
    · rw [if_pos ha]
      have := ih known
      simp only [List.length_cons]
      omega
    · rw [if_neg ha]
      have := ih (a.name :: known)
      simp only [List.length_cons]
      omega

lemma intakeGo_names_perm (known : List String) (files : List JFile) :
    (files.map JFile.name).Perm
      ((intakeGo known files).1.map UploadRecord.name ++
        (intakeGo known files).2.map JFile.name) := by
  induction files generalizing known with
  | nil => simp [intakeGo]
  | cons a rest ih =>
    rw [intakeGo]
    by_cases ha : a.name ∈ known
    · rw [if_pos ha]
      simpa [skipRecord] using (ih known).cons a.name
    · rw [if_neg ha]
      simp only [List.map_cons]
      exact ((ih (a.name :: known)).cons a.name).trans List.perm_middle.symm

lemma intakeGo_mem (known : List String) (files : List JFile) (f : JFile) :
    f ∈ (intakeGo known files).2 ↔
      ∃ pre post, files = pre ++ f :: post ∧ f.name ∉ known ∧
        ∀ g ∈ pre, g.name ≠ f.name := by
  induction files generalizing known with
  | nil =>
    simp only [intakeGo, List.not_mem_nil, false_iff]
    rintro ⟨pre, post, hsplit, -, -⟩
    exact (List.cons_ne_nil f post) (List.append_eq_nil.mp hsplit.symm).2
  | cons a rest ih =>
    rw [intakeGo]
    by_cases ha : a.name ∈ known
    · rw [if_pos ha]
      rw [show ((skipRecord a.name :: (intakeGo known rest).1,
          (intakeGo known rest).2) : List UploadRecord × List JFile).2 =
          (intakeGo known rest).2 from rfl]
      rw [ih known]
      constructor
      · rintro ⟨pre, post, hsplit, hn, hpre⟩
        refine ⟨a :: pre, post, by rw [hsplit, List.cons_append], hn, ?_⟩
        intro g hg
        rcases List.mem_cons.mp hg with h | h
        · subst h
          intro hcontra
          exact hn (hcontra ▸ ha)
        · exact hpre g h
      · rintro ⟨pre, post, hsplit, hn, hpre⟩
        cases pre with
        | nil =>
          simp only [List.nil_append, List.cons.injEq] at hsplit
          exact absurd (hsplit.1 ▸ ha) hn
        | cons b pre2 =>
          simp only [List.cons_append, List.cons.injEq] at hsplit
          exact ⟨pre2, post, hsplit.2, hn,
            fun g hg => hpre g (List.mem_cons_of_mem b hg)⟩
    · rw [if_neg ha]
      rw [show ((((intakeGo (a.name :: known) rest).1 : List UploadRecord),
          a :: (intakeGo (a.name :: known) rest).2) :
          List UploadRecord × List JFile).2 =
          a :: (intakeGo (a.name :: known) rest).2 from rfl]
      rw [List.mem_cons, ih (a.name :: known)]
      constructor
      · rintro (rfl | ⟨pre, post, hsplit, hn, hpre⟩)
        · exact ⟨[], rest, rfl, ha, by simp⟩
        · have hn2 : f.name ∉ known ∧ f.name ≠ a.name := by
            constructor
            · intro hc
              exact hn (List.mem_cons_of_mem _ hc)
            · intro hc
              exact hn (hc ▸ List.mem_cons_self _ _)
          refine ⟨a :: pre, post, by rw [hsplit, List.cons_append], hn2.1, ?_⟩
          intro g hg
          rcases List.mem_cons.mp hg with h | h
          · subst h
            exact fun hc => hn2.2 hc.symm
          · exact hpre g h
      · rintro ⟨pre, post, hsplit, hn, hpre⟩
        cases pre with
        | nil =>
          simp only [List.nil_append, List.cons.injEq] at hsplit
          exact Or.inl hsplit.1.symm
        | cons b pre2 =>
          simp only [List.cons_append, List.cons.injEq] at hsplit
          refine Or.inr ⟨pre2, post, hsplit.2, ?_,
            fun g hg => hpre g (List.mem_cons_of_mem b hg)⟩
          intro hc
          rcases List.mem_cons.mp hc with h | h
          · exact hpre b (List.mem_cons_self b pre2) (hsplit.1 ▸ h).symm
          · exact hn h

/-- C2: the dedup pass of `uploadFiles`. Over any current known-name set and any
input batch: the to-upload list is a sublist of the input (files are appended in
input order); every record the pass creates is an immediate terminal skip record
(`status = "skipped"`, `error = null`, `progress = 0`); each input file yields
exactly one of a skip record or a to-upload slot; the names of the skip records
and of the to-upload files together are exactly the input names; and a file is
put on the to-upload list — and hence is the only kind of file for which the
scheduler ever issues a network request — precisely when its name is neither in
the known set nor borne by an earlier file of the same batch (first wins). -/
theorem fileIntake_correct (known : List String) (files : List JFile) :
    (fileIntake known files).2.Sublist files ∧
    (∀ r ∈ (fileIntake known files).1,
      r.status = .skipped ∧ r.error = none ∧ r.progress = 0) ∧
    (fileIntake known files).1.length + (fileIntake known files).2.length =
      files.length ∧
    (files.map JFile.name).Perm
      ((fileIntake known files).1.map UploadRecord.name ++
        (fileIntake known files).2.map JFile.name) ∧
    (∀ f, f ∈ (fileIntake known files).2 ↔
      ∃ pre post, files = pre ++ f :: post ∧ f.name ∉ known ∧
        ∀ g ∈ pre, g.name ≠ f.name) :=
  ⟨intakeGo_sublist known files, intakeGo_records known files,
    intakeGo_length known files, intakeGo_names_perm known files,
    fun f => intakeGo_mem known files f⟩

lemma persistOrderGo_patches (idx : Nat) (l : List Photo) :
    (persistOrderGo idx l).1 =
      ((l.enumFrom idx).filter fun ip => ip.2.sort_order != ip.1).map
        fun ip => (⟨ip.2.id, ip.1⟩ : SortPatch) := by
  induction l generalizing idx with
  | nil => rfl
  | cons p rest ih =>
    simp only [persistOrderGo, List.enumFrom, List.filter_cons]
    by_cases hp : p.sort_order = idx
    · simp [hp, ih]
    · simp [hp, ih]

lemma persistOrderGo_photos (idx : Nat) (l : List Photo) :
    (persistOrderGo idx l).2 =
      (l.enumFrom idx).map fun ip => { ip.2 with sort_order := ip.1 } := by
  induction l generalizing idx with
  | nil => rfl
  | cons p rest ih =>
    simp only [persistOrderGo, List.enumFrom, List.map_cons]
    by_cases hp : p.sort_order = idx
    · rw [if_neg (not_not_intro hp), ih]
      subst hp
      rfl
    · rw [if_pos hp, ih]

/-- C4: `persistOrder` diffs the committed order against the last known
`sort_order` values. The issued patches are exactly one position patch per photo
whose current index differs from its stored `sort_order`; the returned in-memory
list has every photo's `sort_order` set to its index immediately — the requests
are returned as unresolved data, so the update is independent of their
resolution; and committing an already-sorted order issues zero patches and
changes nothing. -/
theorem persistOrder_correct (order : List Photo) :
    (persistOrder order).1 =
      ((order.enum.filter fun ip => ip.2.sort_order != ip.1).map
        fun ip => (⟨ip.2.id, ip.1⟩ : SortPatch)) ∧
    (persistOrder order).2 =
      order.enum.map (fun ip => { ip.2 with sort_order := ip.1 }) ∧
    ((∀ ip ∈ order.enum, ip.2.sort_order = ip.1) →
      (persistOrder order).1 = [] ∧ (persistOrder order).2 = order) := by
  refine ⟨persistOrderGo_patches 0 order, persistOrderGo_photos 0 order, ?_⟩
  intro h
  constructor
  · rw [show (persistOrder order).1 = (persistOrderGo 0 order).1 from rfl,
      persistOrderGo_patches 0 order,
      show order.enumFrom 0 = order.enum from rfl]
    rw [List.filter_eq_nil_iff.mpr (by intro ip hip; simpa using h ip hip)]
    rfl
  · rw [show (persistOrder order).2 = (persistOrderGo 0 order).2 from rfl,
      persistOrderGo_photos 0 order,
      show order.enumFrom 0 = order.enum from rfl]
    rw [List.map_congr_left
      (fun ip hip => show ({ ip.2 with sort_order := ip.1 } : Photo) = Prod.snd ip by
        rw [← h ip hip])]
    exact List.enum_map_snd order

/-- C8: the drop handler. When no commit is issued the item sequence is
unchanged; `over = null`, a drop target with the dragged item's id, an
unresolved index (`findIndex` returning `-1`, here `findIdx?` returning
`none`), or equal resolved indices each leave the sequence unchanged with no
commit; and when a commit is issued, the new sequence is `arrayMove` applied
exactly once at the two resolved indices, and the committed order is exactly
that resulting sequence. -/
theorem handleDragEnd_correct (items : List Photo) (activeId : Nat)
    (over : Option Nat) :
    ((handleDragEnd items activeId over).2 = none →
      (handleDragEnd items activeId over).1 = items) ∧
    (over = none → handleDragEnd items activeId over = (items, none)) ∧
    (∀ overId, over = some overId →
      (activeId = overId ∨
        items.findIdx? (fun x => x.id == activeId) = none ∨
        items.findIdx? (fun x => x.id == overId) = none ∨
        items.findIdx? (fun x => x.id == activeId) =
          items.findIdx? (fun x => x.id == overId)) →
      handleDragEnd items activeId over = (items, none)) ∧
    (∀ next, (handleDragEnd items activeId over).2 = some next →
      (handleDragEnd items activeId over).1 = next ∧
      ∃ overId oldIndex newIndex, over = some overId ∧ activeId ≠ overId ∧
        items.findIdx? (fun x => x.id == activeId) = some oldIndex ∧
        items.findIdx? (fun x => x.id == overId) = some newIndex ∧
        oldIndex ≠ newIndex ∧ next = arrayMove items oldIndex newIndex) := by
  cases over with
  | none =>
    exact ⟨fun _ => rfl, fun _ => rfl, fun oid h => Option.noConfusion h,
      fun next h => Option.noConfusion h⟩
  | some oid =>
    by_cases heq : activeId = oid
    · have hres : handleDragEnd items activeId (some oid) = (items, none) := by
        simp [handleDragEnd, heq]
      refine ⟨fun _ => by rw [hres], fun hc => Option.noConfusion hc,
        fun overId hov hd => hres, fun next hnext => ?_⟩
      rw [hres] at hnext
      exact Option.noConfusion hnext
    · cases hA : items.findIdx? (fun x => x.id == activeId) with
      | none =>
        have hres : handleDragEnd items activeId (some oid) = (items, none) := by
          simp [handleDragEnd, heq, hA]
        refine ⟨fun _ => by rw [hres], fun hc => Option.noConfusion hc,
          fun overId hov hd => hres, fun next hnext => ?_⟩
        rw [hres] at hnext
        exact Option.noConfusion hnext
      | some oldIndex =>
        cases hB : items.findIdx? (fun x => x.id == oid) with
        | none =>
          have hres : handleDragEnd items activeId (some oid) = (items, none) := by
            simp [handleDragEnd, heq, hA, hB]
          refine ⟨fun _ => by rw [hres], fun hc => Option.noConfusion hc,
            fun overId hov hd => hres, fun next hnext => ?_⟩
          rw [hres] at hnext
          exact Option.noConfusion hnext
        | some newIndex =>
          by_cases hne : oldIndex = newIndex
          · have hres : handleDragEnd items activeId (some oid) = (items, none) := by
              simp [handleDragEnd, heq, hA, hB, hne]
            refine ⟨fun _ => by rw [hres], fun hc => Option.noConfusion hc,
              fun overId hov hd => hres, fun next hnext => ?_⟩
            rw [hres] at hnext
            exact Option.noConfusion hnext
          · have hres : handleDragEnd items activeId (some oid) =
                (arrayMove items oldIndex newIndex,
                  some (arrayMove items oldIndex newIndex)) := by
              simp [handleDragEnd, heq, hA, hB, hne]
            refine ⟨?_, fun hc => Option.noConfusion hc, ?_, ?_⟩
            · intro hc
              rw [hres] at hc
              exact Option.noConfusion hc
            · intro overId hov hd
              exfalso
              have hoid : oid = overId := Option.some_injective _ hov
              subst hoid
              rcases hd with h | h | h | h
              · exact heq h
              · exact Option.noConfusion h
              · rw [hB] at h
                exact Option.noConfusion h
              · rw [hB] at h
                exact hne (Option.some_injective _ h)
            · intro next hnext
              rw [hres] at hnext
              have hstep : arrayMove items oldIndex newIndex = next :=
                Option.some_injective _ hnext
              exact ⟨by rw [hres]; exact hstep, oid, oldIndex, newIndex, rfl, heq,
                rfl, hB, hne, hstep.symm⟩

/-- C9 helper: the first component of `onSaveTitle` is always the draft-overlaid
photo list, in every branch. -/
lemma onSaveTitle_fst (photos : List Photo) (pid : Nat) (value : String)
    (c : Bool) :
    (onSaveTitle photos pid value c).1 =
      photos.map fun x =>
        if x.id = pid then { x with draftTitle := some value } else x := by
  cases c with
  | false => rfl
  | true =>
    cases hf : photos.find? (fun x => x.id == pid) with
    | none => simp [onSaveTitle, hf]
    | some p =>
      by_cases ht : value.trim = p.title.getD ""
      · simp [onSaveTitle, hf, ht]
      · simp [onSaveTitle, hf, ht]

/-- C9 helper: `onSaveTitle` never changes any photo's `title` field (the last
known server value); only the draft overlay is written. -/
lemma onSaveTitle_titles (photos : List Photo) (pid : Nat) (value : String)
    (c : Bool) :
    (onSaveTitle photos pid value c).1.map Photo.title =
      photos.map Photo.title := by
  rw [onSaveTitle_fst, List.map_map]
  apply List.map_congr_left
  intro x _
  by_cases h : x.id = pid <;> simp [h, Function.comp]

/-- C9: title persistence. A keystroke (`commit = false`) never issues a
request; every issued request comes from an explicit commit action (Enter key
or Save click) whose trimmed value differs from the last known server title
(`p.title ?? ""`), and carries exactly that trimmed value; committing a value
equal to the stored title after normalization issues no request; and in every
case the photos' `title` fields — the last known server values — are unchanged
(only the `_title` draft overlay, which tracks the input box, is written). -/
theorem onSaveTitle_correct (photos : List Photo) (pid : Nat) (value : String)
    (a : EditAction) :
    ((onSaveTitle photos pid value (commitFlag .keystroke)).2 = []) ∧
    (∀ req ∈ (onSaveTitle photos pid value (commitFlag a)).2,
      commitFlag a = true ∧
      ∃ p, photos.find? (fun x => x.id == pid) = some p ∧
        value.trim ≠ p.title.getD "" ∧ req = ⟨pid, value.trim⟩) ∧
    (∀ p, photos.find? (fun x => x.id == pid) = some p →
      value.trim = p.title.getD "" →
      (onSaveTitle photos pid value (commitFlag a)).2 = []) ∧
    ((onSaveTitle photos pid value (commitFlag a)).1.map Photo.title =
      photos.map Photo.title) := by
  refine ⟨rfl, ?_, ?_, onSaveTitle_titles photos pid value (commitFlag a)⟩
  · intro req hreq
    cases a with
    | keystroke => exact absurd hreq (List.not_mem_nil req)
    | enterKey =>
      cases hf : photos.find? (fun x => x.id == pid) with
      | none => simp [onSaveTitle, hf] at hreq
      | some p =>
        by_cases ht : value.trim = p.title.getD ""
        · simp [onSaveTitle, hf, ht] at hreq
        · simp only [commitFlag, onSaveTitle, hf, if_neg ht, if_true] at hreq
          rcases List.mem_singleton.mp hreq with rfl
          exact ⟨rfl, p, rfl, ht, rfl⟩
    | saveClick =>
      cases hf : photos.find? (fun x => x.id == pid) with
      | none => simp [onSaveTitle, hf] at hreq
      | some p =>
        by_cases ht : value.trim = p.title.getD ""
        · simp [onSaveTitle, hf, ht] at hreq
        · simp only [commitFlag, onSaveTitle, hf, if_neg ht, if_true] at hreq
          rcases List.mem_singleton.mp hreq with rfl
          exact ⟨rfl, p, rfl, ht, rfl⟩
  · intro p hf ht
    cases a with
    | keystroke => rfl
    | enterKey => simp [onSaveTitle, hf, ht]
    | saveClick => simp [onSaveTitle, hf, ht]

/-- C10: the scheduled panel clear replaces the entire uploads list with the
empty list unconditionally — every record present at firing time is removed,
including records of any other batch still in flight: the callback has no
notion of which batch a record belongs to. -/
theorem panelClear_removes_all (u : List UploadRecord) (r : UploadRecord)
    (h : r ∈ u) :
    clearUploadsPanel u = [] ∧ r ∉ clearUploadsPanel u :=
  ⟨rfl, List.not_mem_nil r⟩

/-- Witness for C10: a record of a still-uploading foreign batch is present at
firing time and is removed. -/
theorem panelClear_removes_all_witness :
    clearUploadsPanel [initRecord "other-batch.jpg"] = [] ∧
    initRecord "other-batch.jpg" ∉ clearUploadsPanel [initRecord "other-batch.jpg"] :=
  panelClear_removes_all [initRecord "other-batch.jpg"] (initRecord "other-batch.jpg")
    (by simp)

end Photography
